import Mathlib

/-!
Verification development for the skill-tree progression core of the
repository: the node catalog and derived adjacency index (`treeData`),
the stat compositor and activation engine (`SkillTreeStore`), and the
build-code codec (`BuildCode`).

Conventions of the shallow embedding:
* JS `number` values appearing in the catalog and the stat compositor are
  exact decimals; they are embedded as `ℚ`.  Skill-point balances and
  grants are integers, embedded as `ℤ`; node costs are the catalog's
  natural-number literals.
* JS `Set<string>` becomes `Finset String`; iteration order over a set is
  made explicit by passing an enumeration `List String` where the source
  iterates.
* JS `Map` lookup (which yields `undefined` for a missing key) becomes an
  `Option`-valued function.
* The singleton mutable store becomes explicit state passing over a
  `StoreState` record; `notify()` is modelled by a counter of
  notifications.
* Strings on the build-code wire are `List Char`; the platform functions
  `btoa`/`atob` are embedded as executable base64 functions on byte lists
  (`List ℕ`, each entry < 256), with `atob` returning `none` where the
  platform function would throw.
-/

/-- The closed union of stat names (`AdditiveStat | MultiplicativeStat`
from `skilltree/types.ts`). -/
inductive StatName where
  | fireRateBonus
  | damageBonus
  | speedBonus
  | rangeBonus
  | maxHPBonus
  | armorFlat
  | scoreBonus
  | bonusSPPerWave
  | multishotAdd
  | fireRateMultiplier
  | damageMultiplier
  | maxHPMultiplier
  | damageTakenMultiplier
  | scoreMultiplier
deriving DecidableEq, Fintype, Repr

/-- A single numeric modifier granted when a node is active
(`NodeEffect` in `skilltree/types.ts`). -/
structure NodeEffect where
  stat : StatName
  value : ℚ
deriving DecidableEq, Repr

/-- A node of the skill-tree graph (`SkillNode` in `skilltree/types.ts`).
Render-only fields (`x`, `y`, `tier`, `branch`, `label`, `description`)
are omitted; behaviour tags are the string literals of `BehaviorType`,
and an absent `behaviors?` field is the empty list. -/
structure SkillNode where
  id : String
  cost : Nat
  effects : List NodeEffect
  behaviors : List String := []
  connections : List String
deriving DecidableEq, Repr

/-- The node catalog (`ALL_NODES` in `skilltree/treeData.ts`):
1 start + 6 branches of 7 + 6 cross-junction nodes. -/
def ALL_NODES : List SkillNode := [
  -- start
  { id := "start", cost := 0, effects := [],
    connections := ["rf_entry", "hs_entry", "bw_entry", "wp_entry", "ch_entry", "co_entry"] },
  -- rapid fire branch
  { id := "rf_entry", cost := 1,
    effects := [⟨.fireRateBonus, 0.08⟩],
    connections := ["rf_s1", "rf_s2"] },
  { id := "rf_s1", cost := 1,
    effects := [⟨.fireRateBonus, 0.06⟩],
    connections := ["rf_n1"] },
  { id := "rf_s2", cost := 1,
    effects := [⟨.fireRateBonus, 0.05⟩, ⟨.rangeBonus, 0.05⟩],
    connections := ["rf_n1", "x_rf_hs"] },
  { id := "rf_n1", cost := 2,
    effects := [⟨.fireRateBonus, 0.20⟩],
    behaviors := ["THERMAL_ACCELERATION"],
    connections := ["rf_s3", "rf_s4"] },
  { id := "rf_s3", cost := 1,
    effects := [⟨.fireRateBonus, 0.08⟩],
    connections := ["rf_key"] },
  { id := "rf_s4", cost := 1,
    effects := [⟨.fireRateBonus, 0.06⟩, ⟨.speedBonus, 0.05⟩],
    connections := ["rf_key"] },
  { id := "rf_key", cost := 3,
    effects := [⟨.fireRateMultiplier, 3.5⟩, ⟨.damageMultiplier, 0.6⟩],
    behaviors := ["BEAM_MODE", "SWEEPING"],
    connections := [] },
  -- heavy strike branch
  { id := "hs_entry", cost := 1,
    effects := [⟨.damageBonus, 0.08⟩],
    connections := ["hs_s1", "hs_s2"] },
  { id := "hs_s1", cost := 1,
    effects := [⟨.damageBonus, 0.06⟩],
    connections := ["hs_n1", "x_rf_hs"] },
  { id := "hs_s2", cost := 1,
    effects := [⟨.damageBonus, 0.05⟩, ⟨.speedBonus, 0.05⟩],
    connections := ["hs_n1", "x_hs_bw"] },
  { id := "hs_n1", cost := 2,
    effects := [⟨.damageBonus, 0.20⟩],
    behaviors := ["KNOCKBACK"],
    connections := ["hs_s3", "hs_s4"] },
  { id := "hs_s3", cost := 1,
    effects := [⟨.damageBonus, 0.08⟩],
    connections := ["hs_key"] },
  { id := "hs_s4", cost := 1,
    effects := [⟨.damageBonus, 0.05⟩, ⟨.rangeBonus, 0.06⟩],
    connections := ["hs_key"] },
  { id := "hs_key", cost := 3,
    effects := [⟨.damageMultiplier, 2.5⟩, ⟨.fireRateMultiplier, 0.5⟩],
    behaviors := ["DELAYED_EXPLOSION", "KNOCKBACK"],
    connections := [] },
  -- bulwark branch
  { id := "bw_entry", cost := 1,
    effects := [⟨.maxHPBonus, 0.10⟩],
    connections := ["bw_s1", "bw_s2"] },
  { id := "bw_s1", cost := 1,
    effects := [⟨.maxHPBonus, 0.08⟩],
    connections := ["bw_n1", "x_hs_bw"] },
  { id := "bw_s2", cost := 1,
    effects := [⟨.maxHPBonus, 0.06⟩, ⟨.armorFlat, 0.04⟩],
    connections := ["bw_n1", "x_bw_wp"] },
  { id := "bw_n1", cost := 2,
    effects := [⟨.maxHPBonus, 0.22⟩],
    behaviors := ["AURA_DAMAGE"],
    connections := ["bw_s3", "bw_s4"] },
  { id := "bw_s3", cost := 1,
    effects := [⟨.maxHPBonus, 0.10⟩],
    connections := ["bw_key"] },
  { id := "bw_s4", cost := 1,
    effects := [⟨.maxHPBonus, 0.06⟩, ⟨.armorFlat, 0.08⟩],
    connections := ["bw_key"] },
  { id := "bw_key", cost := 3,
    effects := [⟨.maxHPMultiplier, 2.0⟩, ⟨.damageTakenMultiplier, 0.75⟩],
    behaviors := ["AURA_DAMAGE", "SCALES_WITH_HP"],
    connections := [] },
  -- warp branch
  { id := "wp_entry", cost := 1,
    effects := [⟨.rangeBonus, 0.10⟩],
    connections := ["wp_s1", "wp_s2"] },
  { id := "wp_s1", cost := 1,
    effects := [⟨.rangeBonus, 0.08⟩],
    connections := ["wp_n1", "x_bw_wp"] },
  { id := "wp_s2", cost := 1,
    effects := [⟨.rangeBonus, 0.06⟩, ⟨.speedBonus, 0.06⟩],
    connections := ["wp_n1", "x_wp_ch"] },
  { id := "wp_n1", cost := 2,
    effects := [⟨.rangeBonus, 0.20⟩],
    behaviors := ["BOOMERANG"],
    connections := ["wp_s3", "wp_s4"] },
  { id := "wp_s3", cost := 1,
    effects := [⟨.speedBonus, 0.10⟩],
    connections := ["wp_key"] },
  { id := "wp_s4", cost := 1,
    effects := [⟨.rangeBonus, 0.08⟩, ⟨.speedBonus, 0.06⟩],
    connections := ["wp_key"] },
  { id := "wp_key", cost := 3,
    effects := [],
    behaviors := ["SPAWN_BLACKHOLE", "MAGNETIC_PULL"],
    connections := [] },
  -- chain branch
  { id := "ch_entry", cost := 1,
    effects := [⟨.multishotAdd, 1⟩],
    connections := ["ch_s1", "ch_s2"] },
  { id := "ch_s1", cost := 1,
    effects := [⟨.fireRateBonus, 0.06⟩],
    connections := ["ch_n1", "x_wp_ch"] },
  { id := "ch_s2", cost := 1,
    effects := [⟨.damageBonus, 0.08⟩],
    connections := ["ch_n1", "x_ch_co"] },
  { id := "ch_n1", cost := 2,
    effects := [⟨.multishotAdd, 1⟩, ⟨.damageBonus, 0.12⟩],
    behaviors := ["SEEKER"],
    connections := ["ch_s3", "ch_s4"] },
  { id := "ch_s3", cost := 1,
    effects := [⟨.fireRateBonus, 0.08⟩],
    connections := ["ch_key"] },
  { id := "ch_s4", cost := 1,
    effects := [⟨.multishotAdd, 1⟩],
    connections := ["ch_key"] },
  { id := "ch_key", cost := 3,
    effects := [⟨.damageMultiplier, 1.5⟩],
    behaviors := ["CHAIN_LIGHTNING", "SMART_TARGETING"],
    connections := [] },
  -- collector branch
  { id := "co_entry", cost := 1,
    effects := [⟨.scoreBonus, 0.20⟩],
    connections := ["co_s1", "co_s2"] },
  { id := "co_s1", cost := 1,
    effects := [⟨.scoreBonus, 0.15⟩],
    connections := ["co_n1", "x_ch_co"] },
  { id := "co_s2", cost := 1,
    effects := [⟨.scoreBonus, 0.15⟩, ⟨.fireRateBonus, 0.05⟩],
    connections := ["co_n1", "x_co_rf"] },
  { id := "co_n1", cost := 2,
    effects := [⟨.scoreBonus, 0.35⟩, ⟨.bonusSPPerWave, 1⟩],
    behaviors := ["KINETIC_HARVEST"],
    connections := ["co_s3", "co_s4"] },
  { id := "co_s3", cost := 1,
    effects := [⟨.scoreBonus, 0.20⟩],
    connections := ["co_key"] },
  { id := "co_s4", cost := 1,
    effects := [⟨.scoreBonus, 0.15⟩, ⟨.rangeBonus, 0.08⟩],
    connections := ["co_key"] },
  { id := "co_key", cost := 3,
    effects := [⟨.scoreMultiplier, 2.0⟩],
    behaviors := ["DAMAGE_SCALES_WITH_SCORE", "ORBITAL_DRONES"],
    connections := [] },
  -- cross-junction nodes
  { id := "x_rf_hs", cost := 1,
    effects := [⟨.fireRateBonus, 0.06⟩, ⟨.damageBonus, 0.05⟩],
    connections := ["rf_s2", "hs_s1"] },
  { id := "x_hs_bw", cost := 1,
    effects := [⟨.damageBonus, 0.06⟩, ⟨.maxHPBonus, 0.08⟩],
    connections := ["hs_s2", "bw_s1"] },
  { id := "x_bw_wp", cost := 1,
    effects := [⟨.maxHPBonus, 0.08⟩, ⟨.rangeBonus, 0.06⟩],
    connections := ["bw_s2", "wp_s1"] },
  { id := "x_wp_ch", cost := 1,
    effects := [⟨.rangeBonus, 0.06⟩, ⟨.speedBonus, 0.06⟩],
    connections := ["wp_s2", "ch_s1"] },
  { id := "x_ch_co", cost := 1,
    effects := [⟨.scoreBonus, 0.15⟩, ⟨.fireRateBonus, 0.06⟩],
    connections := ["ch_s2", "co_s1"] },
  { id := "x_co_rf", cost := 1,
    effects := [⟨.scoreBonus, 0.15⟩, ⟨.fireRateBonus, 0.06⟩],
    connections := ["co_s2", "rf_s1"] }
]

/-- `NODE_MAP` of `treeData.ts`: id → node lookup (ids are unique, so the
first match is the map entry). -/
def NODE_MAP (id : String) : Option SkillNode :=
  ALL_NODES.find? (fun n => n.id == id)

/-- `NODE_IDS` of `BuildCode.ts`: catalog ids in fixed catalog order. -/
def NODE_IDS : List String := ALL_NODES.map (·.id)

-- ---------------------------------------------------------------------------
-- Adjacency index (`buildAdjacency` in `treeData.ts`)
-- ---------------------------------------------------------------------------

/-- The neighbor list of `a` in the bidirectional adjacency index: walking
every node, its declared connections are inserted in both directions. -/
def adjNeighbors (a : String) : List String :=
  (ALL_NODES.map (fun n =>
    (if n.id = a then n.connections else []) ++
    (if a ∈ n.connections then [n.id] else []))).flatten

/-- `buildAdjacency` of `treeData.ts` as a map: a key exists for every
node id and every declared connection target; a missing key is `none`
(the JS map yields `undefined`). -/
def buildAdjacency (a : String) : Option (List String) :=
  if ALL_NODES.any (fun n => n.id == a || n.connections.any (· == a)) then
    some (adjNeighbors a)
  else
    none

-- ---------------------------------------------------------------------------
-- Stat compositor (`createDefaultStats` in `types.ts`,
-- `MULTIPLICATIVE` and `recomputeStats` in `SkillTreeStore.ts`)
-- ---------------------------------------------------------------------------

/-- Accumulated result of all active nodes (`ComputedStats` in
`types.ts`).  The record's fourteen numeric fields are embedded as one
function from the closed field-name union, matching the source's
field access `s[effect.stat]`. -/
structure ComputedStats where
  stats : StatName → ℚ
  behaviors : Finset String

instance : DecidableEq ComputedStats := fun a b =>
  decidable_of_iff (a.stats = b.stats ∧ a.behaviors = b.behaviors)
    (by cases a; cases b; simp)

/-- `createDefaultStats` of `types.ts`: additive pools 0, multiplicative
pools 1, no behavior tags. -/
def createDefaultStats : ComputedStats where
  stats := fun st =>
    match st with
    | .fireRateBonus => 0
    | .damageBonus => 0
    | .speedBonus => 0
    | .rangeBonus => 0
    | .maxHPBonus => 0
    | .armorFlat => 0
    | .scoreBonus => 0
    | .bonusSPPerWave => 0
    | .multishotAdd => 0
    | .fireRateMultiplier => 1
    | .damageMultiplier => 1
    | .maxHPMultiplier => 1
    | .damageTakenMultiplier => 1
    | .scoreMultiplier => 1
  behaviors := ∅

/-- The multiplicative stat set of `SkillTreeStore.ts` (decides `+=` vs
`*=`). -/
def MULTIPLICATIVE : List StatName :=
  [.fireRateMultiplier, .damageMultiplier, .maxHPMultiplier,
   .damageTakenMultiplier, .scoreMultiplier]

/-- One iteration of the effect loop in `recomputeStats`: multiply into
the pool for a multiplicative stat, sum into it otherwise. -/
def applyEffect (s : ComputedStats) (e : NodeEffect) : ComputedStats :=
  if e.stat ∈ MULTIPLICATIVE then
    { s with stats := Function.update s.stats e.stat (s.stats e.stat * e.value) }
  else
    { s with stats := Function.update s.stats e.stat (s.stats e.stat + e.value) }

/-- One iteration of the node loop in `recomputeStats`: an unknown id is
skipped; otherwise all its effects are applied and its behavior tags are
unioned in. -/
def applyNode (s : ComputedStats) (id : String) : ComputedStats :=
  match NODE_MAP id with
  | none => s
  | some node =>
      let s1 := node.effects.foldl applyEffect s
      { s1 with behaviors := node.behaviors.foldl (fun bs b => insert b bs) s1.behaviors }

/-- `recomputeStats` of `SkillTreeStore.ts`, with the iteration order
over the active set passed explicitly; the armor clamp is the final
pass. -/
def recomputeStats (active : List String) : ComputedStats :=
  let s := active.foldl applyNode createDefaultStats
  { s with stats := Function.update s.stats .armorFlat (min (s.stats .armorFlat) 0.85) }

-- ---------------------------------------------------------------------------
-- Activation engine (`SkillTreeStore.ts`)
-- ---------------------------------------------------------------------------

/-- The singleton store state: active node set, skill-point balance, the
cached computed-stats snapshot, and a counter standing in for the
synchronous `notify()` calls.  (`_adjacency` is rebuilt on reset/import
but is always `buildAdjacency` of the fixed catalog, so it is modelled
as that constant.) -/
structure StoreState where
  activeNodes : Finset String
  skillPoints : ℤ
  computedStats : ComputedStats
  notifications : Nat
deriving DecidableEq

/-- The store recomputes its snapshot from its active set (a JS set,
iterated in some enumeration order; by `recomputeStats_perm` below the
order cannot matter, so a canonical sorted enumeration is used). -/
def storeRecompute (active : Finset String) : ComputedStats :=
  recomputeStats (active.sort (· ≤ ·))

/-- The initial store state: `{start}` active, 2 skill points. -/
def initialState : StoreState where
  activeNodes := {"start"}
  skillPoints := 2
  computedStats := storeRecompute {"start"}
  notifications := 0

/-- `SkillTreeStore.isReachable`. -/
def isReachable (st : StoreState) (id : String) : Bool :=
  if id ∈ st.activeNodes then false
  else
    match NODE_MAP id with
    | none => false
    | some _ =>
        match buildAdjacency id with
        | none => false
        | some adj => adj.any (fun n => n ∈ st.activeNodes)

/-- `SkillTreeStore.canActivate`. -/
def canActivate (st : StoreState) (id : String) : Bool :=
  if ¬ isReachable st id then false
  else
    match NODE_MAP id with
    | none => false
    | some node => (node.cost : ℤ) ≤ st.skillPoints

/-- `SkillTreeStore.activate`: boolean result paired with the new state.
(The `none` branch of the inner match is unreachable: `canActivate`
guarantees the lookup succeeds, as the source's `!` assertion assumes.) -/
def activate (st : StoreState) (id : String) : Bool × StoreState :=
  if ¬ canActivate st id then (false, st)
  else
    match NODE_MAP id with
    | none => (false, st)
    | some node =>
        let active := insert id st.activeNodes
        (true,
         { activeNodes := active
           skillPoints := st.skillPoints - node.cost
           computedStats := storeRecompute active
           notifications := st.notifications + 1 })

/-- `SkillTreeStore.addSkillPoints`: balance += n, notify, nothing else. -/
def addSkillPoints (st : StoreState) (n : ℤ) : StoreState :=
  { st with skillPoints := st.skillPoints + n
            notifications := st.notifications + 1 }

/-- `SkillTreeStore.loadBuild`: wholesale replacement of the active set,
balance zeroed, snapshot recomputed, notify. -/
def loadBuild (st : StoreState) (nodes : Finset String) : StoreState where
  activeNodes := nodes
  skillPoints := 0
  computedStats := storeRecompute nodes
  notifications := st.notifications + 1

/-- `SkillTreeStore.reset`: back to `{start}` and 2 points. -/
def reset (st : StoreState) : StoreState where
  activeNodes := {"start"}
  skillPoints := 2
  computedStats := storeRecompute {"start"}
  notifications := st.notifications + 1

/-- The store's public mutating operations, for stating reachable-state
invariants. -/
inductive Op where
  | activate (id : String)
  | addSkillPoints (n : ℤ)
  | loadBuild (nodes : Finset String)
  | reset
deriving DecidableEq

/-- Apply one public operation to the store state. -/
def applyOp (st : StoreState) (op : Op) : StoreState :=
  match op with
  | .activate id => (activate st id).2
  | .addSkillPoints n => addSkillPoints st n
  | .loadBuild nodes => loadBuild st nodes
  | .reset => reset st

/-- Run a sequence of public operations from the initial state. -/
def runOps (ops : List Op) : StoreState :=
  ops.foldl applyOp initialState

-- ---------------------------------------------------------------------------
-- Platform string / base64 model (`btoa`, `atob`, `String.prototype.trim`)
-- ---------------------------------------------------------------------------

/-- ASCII whitespace, as stripped by `trim` and by forgiving-base64. -/
def isWS (c : Char) : Bool :=
  c == ' ' || c == '\t' || c == '\n' || c == '\r' || c == '\x0c'

/-- `String.prototype.trim` on the wire string (whitespace stripped from
both ends). -/
def jsTrim (l : List Char) : List Char :=
  ((l.dropWhile isWS).reverse.dropWhile isWS).reverse

/-- The base64 alphabet. -/
def B64_ALPHABET : List Char :=
  "ABCDEFGHIJKLMNOPQRSTUVWXYZabcdefghijklmnopqrstuvwxyz0123456789+/".toList

/-- Sextet value → base64 digit. -/
def b64Char (n : Nat) : Char := B64_ALPHABET.getD n 'A'

/-- Base64 digit → sextet value; `none` for a character outside the
alphabet (where `atob` throws). -/
def b64Index (c : Char) : Option Nat := B64_ALPHABET.findIdx? (· == c)

/-- `btoa` on a binary string of byte char-codes: each 3-byte group
becomes 4 digits; a trailing 1- or 2-byte group is padded with `=`. -/
def btoa : List Nat → List Char
  | [] => []
  | [b1] => [b64Char (b1 / 4), b64Char (b1 % 4 * 16), '=', '=']
  | [b1, b2] =>
      [b64Char (b1 / 4), b64Char (b1 % 4 * 16 + b2 / 16), b64Char (b2 % 16 * 4), '=']
  | b1 :: b2 :: b3 :: rest =>
      b64Char (b1 / 4) :: b64Char (b1 % 4 * 16 + b2 / 16) ::
      b64Char (b2 % 16 * 4 + b3 / 64) :: b64Char (b3 % 64) :: btoa rest

/-- Sextet stream → bytes: every full 4-group yields 3 bytes; a trailing
2- or 3-group yields 1 or 2 bytes with the leftover bits discarded
(forgiving-base64). -/
def sextetsToBytes : List Nat → List Nat
  | s1 :: s2 :: s3 :: s4 :: rest =>
      (s1 * 4 + s2 / 16) :: (s2 % 16 * 16 + s3 / 4) :: (s3 % 4 * 64 + s4) ::
      sextetsToBytes rest
  | [s1, s2, s3] => [s1 * 4 + s2 / 16, s2 % 16 * 16 + s3 / 4]
  | [s1, s2] => [s1 * 4 + s2 / 16]
  | [_] => []
  | [] => []

/-- Strip the `=` padding: when the length is a multiple of 4, up to two
trailing `=` are removed (forgiving-base64). -/
def stripPad (d : List Char) : List Char :=
  if d.length % 4 = 0 then
    if d.getLast? = some '=' then
      if d.dropLast.getLast? = some '=' then d.dropLast.dropLast
      else d.dropLast
    else d
  else d

/-- `atob` (forgiving-base64 decode): remove ASCII whitespace, strip
padding, reject a leftover length of 1 mod 4 or any character outside
the alphabet, and reassemble bytes; `none` models the thrown
`InvalidCharacterError`. -/
def atob (cs : List Char) : Option (List Nat) :=
  let d := stripPad (cs.filter (fun c => ¬ isWS c))
  if d.length % 4 = 1 then none
  else
    match d.mapM b64Index with
    | none => none
    | some sextets => some (sextetsToBytes sextets)

-- ---------------------------------------------------------------------------
-- Build codec (`BuildCode.ts`)
-- ---------------------------------------------------------------------------

/-- The wire-format tag `'NEXUS-'` (the source's prefix constant). -/
def NEXUS_TAG : List Char := "NEXUS-".toList

/-- `BYTE_COUNT` of `BuildCode.ts`: `Math.ceil(NODE_IDS.length / 8)`. -/
def BYTE_COUNT : Nat := (NODE_IDS.length + 7) / 8

/-- The bitmask loop of `encodeBuild`: bit `i % 8` of byte `i / 8` is set
iff catalog node `i` is in the active set. -/
def encodeBytes (active : Finset String) : List Nat :=
  (List.range NODE_IDS.length).foldl
    (fun bytes i =>
      if NODE_IDS.getD i "" ∈ active then
        bytes.set (i / 8) (bytes.getD (i / 8) 0 ||| (1 <<< (i % 8)))
      else bytes)
    (List.replicate BYTE_COUNT 0)

/-- `encodeBuild`: tag + base64 of the bitmask bytes. -/
def encodeBuild (active : Finset String) : List Char :=
  NEXUS_TAG ++ btoa (encodeBytes active)

/-- The bit-extraction loop of `decodeBuild`: collect the ids of the
in-range set bits. -/
def decodeActive (bytes : List Nat) : Finset String :=
  (List.range NODE_IDS.length).foldl
    (fun acc i =>
      if i / 8 < bytes.length ∧ bytes.getD (i / 8) 0 &&& (1 <<< (i % 8)) ≠ 0 then
        insert (NODE_IDS.getD i "") acc
      else acc)
    ∅

-- ---------------------------------------------------------------------------
-- Connectivity validation (`validateConnectivity` in `BuildCode.ts`)
-- ---------------------------------------------------------------------------

/-- The body of the BFS neighbor loop: an active, unvisited neighbor is
marked visited and pushed on the queue. -/
def enqueue (active : Finset String) (s : List String × Finset String) (n : String) :
    List String × Finset String :=
  if n ∈ active ∧ n ∉ s.2 then (s.1 ++ [n], insert n s.2) else s

/-- The BFS while-loop of `validateConnectivity`.  The source loop
terminates unconditionally; here an explicit fuel bounds the iterations,
and `BFS_FUEL` below is proven large enough to reach the loop's
fixpoint. -/
def bfsAux (active : Finset String) : Nat → List String → Finset String → Finset String
  | 0, _, visited => visited
  | _ + 1, [], visited => visited
  | fuel + 1, curr :: rest, visited =>
      let s := ((buildAdjacency curr).getD []).foldl (enqueue active) (rest, visited)
      bfsAux active fuel s.1 s.2

/-- Every id a BFS from the catalog adjacency can ever touch. -/
def allIds : Finset String :=
  ((ALL_NODES.map (fun n => n.id :: n.connections)).flatten).toFinset

/-- Iteration bound for `bfsAux`: comfortably above the proved measure
`queue.length + 2 * (allIds \ visited).card` of the initial state. -/
def BFS_FUEL : Nat := 200

/-- `validateConnectivity`: BFS from `'start'` over edges into active
nodes, then check every active id was visited. -/
def validateConnectivity (active : Finset String) : Bool :=
  decide (active ⊆ bfsAux active BFS_FUEL ["start"] {"start"})

/-- `decodeBuild`: trim, case-insensitive tag check, base64 decode (a
throw yields `none`), bit extraction, unconditional root insertion,
connectivity re-validation.  (The source's intermediate consts
`stripped` and `active` are inlined.) -/
def decodeBuild (code : List Char) : Option (Finset String) :=
  if ¬ (NEXUS_TAG.isPrefixOf ((jsTrim code).map Char.toUpper)) then none
  else
    match atob ((jsTrim code).drop NEXUS_TAG.length) with
    | none => none
    | some bytes =>
        if validateConnectivity (insert "start" (decodeActive bytes)) then
          some (insert "start" (decodeActive bytes))
        else none

/-- The declarative connectivity property `validateConnectivity` checks:
`x` is joined to `'start'` by a path whose every step follows the
adjacency index into a member of `active`. -/
def Connected (active : Finset String) (x : String) : Prop :=
  Relation.ReflTransGen (fun a b => b ∈ adjNeighbors a ∧ b ∈ active) "start" x

-- ---------------------------------------------------------------------------
-- Proof-side views of the compositor folds
-- ---------------------------------------------------------------------------

/-- The action of one effect on the numeric stat record alone. -/
def statsStep (f : StatName → ℚ) (e : NodeEffect) : StatName → ℚ :=
  if e.stat ∈ MULTIPLICATIVE then
    Function.update f e.stat (f e.stat * e.value)
  else
    Function.update f e.stat (f e.stat + e.value)

/-- The action of a node id on the numeric stat record alone. -/
def nodeStats (id : String) (f : StatName → ℚ) : StatName → ℚ :=
  match NODE_MAP id with
  | none => f
  | some n => n.effects.foldl statsStep f

/-- Left fold of `Finset.insert`, the behavior-tag union loop. -/
def behInsert (x : Finset String) (l : List String) : Finset String :=
  l.foldl (fun bs b => insert b bs) x

/-- The action of a node id on the behavior-tag set alone. -/
def nodeBehs (id : String) (x : Finset String) : Finset String :=
  match NODE_MAP id with
  | none => x
  | some n => behInsert x n.behaviors

/-- The total armor (flat damage reduction) value a node contributes: the
sum of its declared `armorFlat` effect values; 0 for an unknown id. -/
def armorContribution (id : String) : ℚ :=
  match NODE_MAP id with
  | none => 0
  | some n => ((n.effects.filter (fun e => e.stat = .armorFlat)).map (·.value)).sum

/-- The base64 digits of a byte list without the `=` padding (`btoa`
minus its final pad characters); proof-side view of `btoa`. -/
def b64Digits : List Nat → List Char
  | [] => []
  | [b1] => [b64Char (b1 / 4), b64Char (b1 % 4 * 16)]
  | [b1, b2] =>
      [b64Char (b1 / 4), b64Char (b1 % 4 * 16 + b2 / 16), b64Char (b2 % 16 * 4)]
  | b1 :: b2 :: b3 :: rest =>
      b64Char (b1 / 4) :: b64Char (b1 % 4 * 16 + b2 / 16) ::
      b64Char (b2 % 16 * 4 + b3 / 64) :: b64Char (b3 % 64) :: b64Digits rest

-- ---------------------------------------------------------------------------
-- Stat compositor lemmas
-- ---------------------------------------------------------------------------

theorem applyEffect_eq (s : ComputedStats) (e : NodeEffect) :
    applyEffect s e = ⟨statsStep s.stats e, s.behaviors⟩ := by
  cases s
  unfold applyEffect statsStep
  split <;> rfl

theorem foldl_applyEffect_eq (l : List NodeEffect) (s : ComputedStats) :
    l.foldl applyEffect s = ⟨l.foldl statsStep s.stats, s.behaviors⟩ := by
  induction l generalizing s with
  | nil => cases s; rfl
  | cons e t ih => simp [List.foldl_cons, applyEffect_eq, ih]

theorem applyNode_eq (s : ComputedStats) (id : String) :
    applyNode s id = ⟨nodeStats id s.stats, nodeBehs id s.behaviors⟩ := by
  cases s
  unfold applyNode nodeStats nodeBehs
  cases h : NODE_MAP id with
  | none => rfl
  | some n => simp [foldl_applyEffect_eq, behInsert]

theorem statsStep_comm (f : StatName → ℚ) (e1 e2 : NodeEffect) :
    statsStep (statsStep f e1) e2 = statsStep (statsStep f e2) e1 := by
  unfold statsStep
  by_cases heq : e1.stat = e2.stat
  · rw [heq]
    by_cases h1 : e2.stat ∈ MULTIPLICATIVE
    · simp only [if_pos h1, Function.update_same, Function.update_idem]
      ring_nf
    · simp only [if_neg h1, Function.update_same, Function.update_idem]
      ring_nf
  · have hne : e2.stat ≠ e1.stat := fun h => heq h.symm
    split <;> split <;>
      rw [Function.update_noteq hne, Function.update_noteq (Ne.symm hne),
        Function.update_comm heq]

/-- Generic: a pairwise right-commutative fold commutes with one step. -/
theorem foldl_step_comm {α β : Type _} (f : β → α → β)
    (h : ∀ s a b, f (f s a) b = f (f s b) a) (l : List α) :
    ∀ (s : β) (a : α), l.foldl f (f s a) = f (l.foldl f s) a := by
  induction l with
  | nil => intro s a; rfl
  | cons x t ih => intro s a; simp only [List.foldl_cons, h s a x, ih]

/-- Generic: two pairwise right-commutative folds commute. -/
theorem foldl_foldl_comm {α β : Type _} (f : β → α → β)
    (h : ∀ s a b, f (f s a) b = f (f s b) a) (l1 l2 : List α) :
    ∀ s : β, l2.foldl f (l1.foldl f s) = l1.foldl f (l2.foldl f s) := by
  induction l1 with
  | nil => intro s; rfl
  | cons x t ih =>
      intro s
      simp only [List.foldl_cons]
      rw [ih (f s x), foldl_step_comm f h l2]

theorem nodeStats_comm (a b : String) (f : StatName → ℚ) :
    nodeStats b (nodeStats a f) = nodeStats a (nodeStats b f) := by
  unfold nodeStats
  cases NODE_MAP a <;> cases NODE_MAP b <;>
    simp [foldl_foldl_comm statsStep statsStep_comm]

theorem behInsert_eq_union (l : List String) :
    ∀ x : Finset String, behInsert x l = x ∪ l.toFinset := by
  induction l with
  | nil => intro x; simp [behInsert]
  | cons b t ih =>
      intro x
      unfold behInsert at ih ⊢
      simp only [List.foldl_cons, ih]
      ext y
      simp only [Finset.mem_union, Finset.mem_insert, List.toFinset_cons, List.mem_toFinset]
      tauto

theorem nodeBehs_comm (a b : String) (x : Finset String) :
    nodeBehs b (nodeBehs a x) = nodeBehs a (nodeBehs b x) := by
  unfold nodeBehs
  cases NODE_MAP a <;> cases NODE_MAP b <;>
    simp [behInsert_eq_union, Finset.union_assoc, Finset.union_comm, Finset.union_left_comm]

theorem applyNode_comm (s : ComputedStats) (a b : String) :
    applyNode (applyNode s a) b = applyNode (applyNode s b) a := by
  simp only [applyNode_eq]
  rw [nodeStats_comm, nodeBehs_comm]

/-- Generic: folds of a pairwise right-commutative function agree on
permutations. -/
theorem foldl_perm_of_comm {α β : Type _} (f : β → α → β)
    (h : ∀ s a b, f (f s a) b = f (f s b) a) {l1 l2 : List α}
    (p : l1.Perm l2) : ∀ s : β, l1.foldl f s = l2.foldl f s := by
  induction p with
  | nil => intro s; rfl
  | cons x _ ih => intro s; simp only [List.foldl_cons, ih]
  | swap x y l => intro s; simp only [List.foldl_cons, h]
  | trans _ _ ih1 ih2 => intro s; rw [ih1, ih2]

/-- C4: the stat composition is order-independent — `recomputeStats`
(additive fields accumulated from 0 by `+`, multiplicative fields from 1
by `*`, behavior tags unioned, per `applyEffect`/`createDefaultStats`)
yields the same `ComputedStats` snapshot for any two enumerations of the
same active set. -/
theorem recomputeStats_order_independent (l1 l2 : List String) (h : l1.Perm l2) :
    recomputeStats l1 = recomputeStats l2 := by
  unfold recomputeStats
  rw [foldl_perm_of_comm applyNode applyNode_comm h]

/-- Witness for C4 at a concrete pair of enumerations of `{start, rf_entry}`. -/
theorem recomputeStats_order_independent_witness :
    (["start", "rf_entry"] : List String).Perm ["rf_entry", "start"]
    ∧ recomputeStats ["start", "rf_entry"] = recomputeStats ["rf_entry", "start"] :=
  ⟨by decide, recomputeStats_order_independent ["start", "rf_entry"] ["rf_entry", "start"] (by decide)⟩

-- ---------------------------------------------------------------------------
-- Armor accumulation lemmas
-- ---------------------------------------------------------------------------

theorem statsStep_armorFlat (f : StatName → ℚ) (e : NodeEffect) :
    statsStep f e .armorFlat
      = f .armorFlat + (if e.stat = .armorFlat then e.value else 0) := by
  unfold statsStep
  by_cases h : e.stat = .armorFlat
  · have hm : e.stat ∉ MULTIPLICATIVE := by rw [h]; decide
    rw [if_neg hm, h, Function.update_same, if_pos rfl]
  · rw [if_neg h]
    split <;> rw [Function.update_noteq (Ne.symm h)] <;> simp

theorem foldl_statsStep_armorFlat (l : List NodeEffect) :
    ∀ f : StatName → ℚ,
      l.foldl statsStep f .armorFlat
        = f .armorFlat + ((l.filter (fun e => e.stat = .armorFlat)).map (·.value)).sum := by
  induction l with
  | nil => intro f; simp
  | cons e t ih =>
      intro f
      by_cases h : e.stat = .armorFlat <;>
        simp [List.foldl_cons, List.filter_cons, h, ih, statsStep_armorFlat] <;>
        ring

theorem applyNode_armorFlat (s : ComputedStats) (id : String) :
    (applyNode s id).stats .armorFlat = s.stats .armorFlat + armorContribution id := by
  rw [applyNode_eq]
  unfold nodeStats armorContribution
  cases NODE_MAP id with
  | none => simp
  | some n => simp [foldl_statsStep_armorFlat]

/-- C8: the composed snapshot's flat damage-reduction field never
exceeds 0.85; the ceiling is a single `min` taken as a final pass over
the raw fold of node effects, while each per-node application is an
unclamped addition of the node's declared armor values. -/
theorem armorFlat_cap_final_pass (l : List String) :
    (recomputeStats l).stats .armorFlat ≤ 0.85
    ∧ (recomputeStats l).stats .armorFlat
        = min ((l.foldl applyNode createDefaultStats).stats .armorFlat) 0.85
    ∧ ∀ (s : ComputedStats) (id : String),
        (applyNode s id).stats .armorFlat = s.stats .armorFlat + armorContribution id := by
  refine ⟨?_, ?_, fun s id => applyNode_armorFlat s id⟩ <;>
    simp [recomputeStats, Function.update_same, min_le_right]

-- ---------------------------------------------------------------------------
-- Activation engine lemmas
-- ---------------------------------------------------------------------------

theorem buildAdjacency_of_nodeMap {id : String} {n : SkillNode}
    (h : NODE_MAP id = some n) : buildAdjacency id = some (adjNeighbors id) := by
  unfold NODE_MAP at h
  have hmem := List.mem_of_find?_eq_some h
  have hp0 := List.find?_some h
  have hp : (n.id == id) = true := hp0
  have hany : (ALL_NODES.any fun m => m.id == id || m.connections.any (· == id)) = true :=
    List.any_eq_true.mpr ⟨n, hmem, by simp [hp]⟩
  unfold buildAdjacency
  rw [hany]
  simp

theorem isReachable_iff (st : StoreState) (id : String) :
    isReachable st id = true ↔
      (∃ node, NODE_MAP id = some node) ∧ id ∉ st.activeNodes
        ∧ ∃ n ∈ adjNeighbors id, n ∈ st.activeNodes := by
  unfold isReachable
  by_cases ha : id ∈ st.activeNodes
  · simp [ha]
  · rw [if_neg ha]
    cases hm : NODE_MAP id with
    | none => simp
    | some n =>
        rw [buildAdjacency_of_nodeMap hm]
        simp [ha, List.any_eq_true]

theorem canActivate_iff (st : StoreState) (id : String) :
    canActivate st id = true ↔
      isReachable st id = true
        ∧ ∃ node, NODE_MAP id = some node ∧ (node.cost : ℤ) ≤ st.skillPoints := by
  unfold canActivate
  by_cases hr : isReachable st id = true
  · simp only [hr, not_true_eq_false, if_false]
    cases hm : NODE_MAP id with
    | none => simp
    | some n => simp
  · have hrf : isReachable st id = false := by
      revert hr; cases isReachable st id <;> simp
    simp [hrf]

theorem unknown_id_queries {st : StoreState} {id : String}
    (hm : NODE_MAP id = none) :
    isReachable st id = false ∧ canActivate st id = false := by
  have hr : isReachable st id = false := by
    unfold isReachable
    by_cases ha : id ∈ st.activeNodes
    · simp [ha]
    · rw [if_neg ha, hm]
  refine ⟨hr, ?_⟩
  unfold canActivate
  simp [hr]

theorem activate_fail {st : StoreState} {id : String}
    (h : canActivate st id = false) : activate st id = (false, st) := by
  unfold activate
  rw [if_pos (by simp [h])]

theorem activate_success {st : StoreState} {id : String}
    (h : canActivate st id = true) :
    ∃ node, NODE_MAP id = some node
      ∧ activate st id = (true,
          { activeNodes := insert id st.activeNodes
            skillPoints := st.skillPoints - node.cost
            computedStats := storeRecompute (insert id st.activeNodes)
            notifications := st.notifications + 1 }) := by
  obtain ⟨-, node, hm, -⟩ := (canActivate_iff st id).1 h
  refine ⟨node, hm, ?_⟩
  unfold activate
  rw [if_neg (by simp [h]), hm]

theorem activate_nonneg {st : StoreState} {id : String}
    (h : 0 ≤ st.skillPoints) : 0 ≤ (activate st id).2.skillPoints := by
  by_cases hc : canActivate st id = true
  · obtain ⟨-, node', hm', hcost⟩ := (canActivate_iff st id).1 hc
    obtain ⟨node, hm, heq⟩ := activate_success hc
    rw [hm'] at hm
    injection hm with hm
    subst hm
    rw [heq]
    exact sub_nonneg.mpr hcost
  · have hf : canActivate st id = false := by
      revert hc; cases canActivate st id <;> simp
    rw [activate_fail hf]
    exact h

theorem foldl_activate_nonneg (l : List String) :
    ∀ st : StoreState, 0 ≤ st.skillPoints →
      0 ≤ (l.foldl (fun st id => (activate st id).2) st).skillPoints := by
  induction l with
  | nil => intro st h; exact h
  | cons id t ih => intro st h; exact ih _ (activate_nonneg h)

/-- C3: from the initial state (active `{start}`, balance 2) the balance
stays non-negative under every sequence of `activate` calls; a failed
precondition leaves the state untouched with a `false` result, and a
successful `activate` inserts the id and subtracts the node's cost. -/
theorem activation_economy :
    (∀ l : List String,
      0 ≤ (l.foldl (fun st id => (activate st id).2) initialState).skillPoints)
    ∧ (∀ (st : StoreState) (id : String),
        canActivate st id = false → activate st id = (false, st))
    ∧ (∀ (st : StoreState) (id : String),
        canActivate st id = true →
          ∃ node, NODE_MAP id = some node
            ∧ (activate st id).1 = true
            ∧ (activate st id).2.activeNodes = insert id st.activeNodes
            ∧ (activate st id).2.skillPoints = st.skillPoints - node.cost) := by
  refine ⟨fun l => foldl_activate_nonneg l initialState (by decide),
    fun st id h => activate_fail h, fun st id h => ?_⟩
  obtain ⟨node, hm, heq⟩ := activate_success h
  exact ⟨node, hm, by rw [heq], by rw [heq], by rw [heq]⟩

/-- Witness for C3: a failing and a succeeding activation at concrete
inputs. -/
theorem activation_economy_witness :
    activate initialState "zzz" = (false, initialState)
    ∧ ∃ node, NODE_MAP "rf_entry" = some node
        ∧ (activate initialState "rf_entry").1 = true
        ∧ (activate initialState "rf_entry").2.activeNodes
            = insert "rf_entry" initialState.activeNodes
        ∧ (activate initialState "rf_entry").2.skillPoints
            = initialState.skillPoints - node.cost :=
  ⟨activation_economy.2.1 initialState "zzz" (by decide),
   activation_economy.2.2 initialState "rf_entry" (by decide)⟩

/-- C5: `isReachable` holds exactly for a known, not-yet-active catalog
node with an active neighbor in the adjacency index; `canActivate` adds
affordability; an id absent from the catalog makes both queries `false`
(total functions, no exception path). -/
theorem reachability_and_affordability (st : StoreState) (id : String) :
    (isReachable st id = true ↔
      (∃ node, NODE_MAP id = some node) ∧ id ∉ st.activeNodes
        ∧ ∃ n ∈ adjNeighbors id, n ∈ st.activeNodes)
    ∧ (canActivate st id = true ↔
        isReachable st id = true
          ∧ ∃ node, NODE_MAP id = some node ∧ (node.cost : ℤ) ≤ st.skillPoints)
    ∧ (NODE_MAP id = none →
        isReachable st id = false ∧ canActivate st id = false) :=
  ⟨isReachable_iff st id, canActivate_iff st id, fun hm => unknown_id_queries hm⟩

/-- Witness for C5: the unknown id `'zzz'` degrades both queries to
`false` in the initial state. -/
theorem reachability_and_affordability_witness :
    isReachable initialState "zzz" = false ∧ canActivate initialState "zzz" = false :=
  (reachability_and_affordability initialState "zzz").2.2 (by decide)

/-- C9: `loadBuild` replaces the active set wholesale whatever the
previous state was, zeroes the balance, recomputes the snapshot from the
new set, and notifies. -/
theorem loadBuild_wholesale (st : StoreState) (nodes : Finset String) :
    (loadBuild st nodes).activeNodes = nodes
    ∧ (loadBuild st nodes).skillPoints = 0
    ∧ (loadBuild st nodes).computedStats = storeRecompute nodes
    ∧ (loadBuild st nodes).notifications = st.notifications + 1 :=
  ⟨rfl, rfl, rfl, rfl⟩

/-- C10: `addSkillPoints` adds the grant to the balance and notifies,
leaving the active set and the cached `ComputedStats` snapshot exactly
as they were (no recomputation). -/
theorem addSkillPoints_frame (st : StoreState) (n : ℤ) :
    (addSkillPoints st n).skillPoints = st.skillPoints + n
    ∧ (addSkillPoints st n).activeNodes = st.activeNodes
    ∧ (addSkillPoints st n).computedStats = st.computedStats
    ∧ (addSkillPoints st n).notifications = st.notifications + 1 :=
  ⟨rfl, rfl, rfl, rfl⟩

-- ---------------------------------------------------------------------------
-- Reachable-state invariants
-- ---------------------------------------------------------------------------

theorem applyOp_root {st : StoreState} {op : Op}
    (h : "start" ∈ st.activeNodes)
    (hl : ∀ nodes, op = Op.loadBuild nodes → "start" ∈ nodes) :
    "start" ∈ (applyOp st op).activeNodes := by
  cases op with
  | activate id =>
      show "start" ∈ (activate st id).2.activeNodes
      by_cases hc : canActivate st id = true
      · obtain ⟨node, hm, heq⟩ := activate_success hc
        rw [heq]
        exact Finset.mem_insert_of_mem h
      · have hf : canActivate st id = false := by
          revert hc; cases canActivate st id <;> simp
        rw [activate_fail hf]
        exact h
  | addSkillPoints n => exact h
  | loadBuild nodes => exact hl nodes rfl
  | reset =>
      show "start" ∈ ({"start"} : Finset String)
      exact Finset.mem_insert_self "start" ∅

theorem foldl_applyOp_root (ops : List Op) :
    ∀ st : StoreState, "start" ∈ st.activeNodes →
      (∀ nodes, Op.loadBuild nodes ∈ ops → "start" ∈ nodes) →
      "start" ∈ (ops.foldl applyOp st).activeNodes := by
  induction ops with
  | nil => intro st h _; exact h
  | cons op t ih =>
      intro st h hl
      exact ih _ (applyOp_root h (fun nodes he => hl nodes (he ▸ List.mem_cons_self op t)))
        (fun nodes hm => hl nodes (List.mem_cons_of_mem op hm))

/-- C6 (amended): every state reached from the initial state by public
operations has `'start'` active, provided each `loadBuild` argument
contains `'start'` (as every `decodeBuild` result does); the unrestricted
claim fails because `loadBuild` installs its argument verbatim. -/
theorem root_always_active (ops : List Op)
    (h : ∀ nodes, Op.loadBuild nodes ∈ ops → "start" ∈ nodes) :
    "start" ∈ (runOps ops).activeNodes :=
  foldl_applyOp_root ops initialState (by decide) h

/-- Witness for C6 (amended) on a concrete loadBuild-free sequence. -/
theorem root_always_active_witness :
    "start" ∈ (runOps [Op.reset, Op.activate "rf_entry"]).activeNodes :=
  root_always_active [Op.reset, Op.activate "rf_entry"]
    (fun nodes hmem => by simp at hmem)

/-- Counterexample to C6 as stated: `loadBuild ∅` is a sequence of public
operations after which the active set no longer contains `'start'`. -/
theorem root_always_active_counterexample :
    "start" ∉ (runOps [Op.loadBuild ∅]).activeNodes := by
  decide

theorem applyOp_nonneg {st : StoreState} {op : Op}
    (h : 0 ≤ st.skillPoints)
    (hg : ∀ n, op = Op.addSkillPoints n → 0 ≤ n) :
    0 ≤ (applyOp st op).skillPoints := by
  cases op with
  | activate id => exact activate_nonneg h
  | addSkillPoints n => exact add_nonneg h (hg n rfl)
  | loadBuild nodes => exact le_refl 0
  | reset =>
      show (0 : ℤ) ≤ (2 : ℤ)
      decide

theorem foldl_applyOp_nonneg (ops : List Op) :
    ∀ st : StoreState, 0 ≤ st.skillPoints →
      (∀ n, Op.addSkillPoints n ∈ ops → 0 ≤ n) →
      0 ≤ (ops.foldl applyOp st).skillPoints := by
  induction ops with
  | nil => intro st h _; exact h
  | cons op t ih =>
      intro st h hg
      exact ih _ (applyOp_nonneg h (fun n he => hg n (he ▸ List.mem_cons_self op t)))
        (fun n hm => hg n (List.mem_cons_of_mem op hm))

/-- C7 (amended): the balance is non-negative in every state reached by
public operations whose skill-point grants are all non-negative; the
unrestricted claim fails because `addSkillPoints` adds its integer
argument unguarded. -/
theorem balance_never_negative (ops : List Op)
    (h : ∀ n, Op.addSkillPoints n ∈ ops → 0 ≤ n) :
    0 ≤ (runOps ops).skillPoints :=
  foldl_applyOp_nonneg ops initialState (by decide) h

/-- Witness for C7 (amended) on a concrete sequence with a grant. -/
theorem balance_never_negative_witness :
    0 ≤ (runOps [Op.addSkillPoints 5, Op.activate "rf_entry"]).skillPoints :=
  balance_never_negative [Op.addSkillPoints 5, Op.activate "rf_entry"]
    (fun n hmem => by simp at hmem; omega)

/-- Counterexample to C7 as stated: a negative grant (an "arbitrary
integer amount") drives the balance below zero. -/
theorem balance_never_negative_counterexample :
    ¬ 0 ≤ (runOps [Op.addSkillPoints (-3)]).skillPoints := by
  decide

-- ---------------------------------------------------------------------------
-- Base64 lemmas
-- ---------------------------------------------------------------------------

theorem b64Index_b64Char : ∀ n, n < 64 → b64Index (b64Char n) = some n := by decide

theorem b64Char_not_ws : ∀ n, n < 64 → isWS (b64Char n) = false := by decide

theorem b64Char_ne_pad : ∀ n, n < 64 → b64Char n ≠ '=' := by decide

theorem pad_not_ws : isWS '=' = false := by decide

theorem btoa_chars (bs : List Nat) (hb : ∀ b ∈ bs, b < 256) :
    ∀ c ∈ btoa bs, c = '=' ∨ ∃ n, n < 64 ∧ c = b64Char n := by
  match bs with
  | [] => intro c hc; simp [btoa] at hc
  | [b1] =>
      intro c hc
      have h1 : b1 < 256 := hb b1 (by simp)
      simp [btoa] at hc
      rcases hc with h | h | h
      · exact Or.inr ⟨b1 / 4, by omega, h⟩
      · exact Or.inr ⟨b1 % 4 * 16, by omega, h⟩
      · exact Or.inl h
  | [b1, b2] =>
      intro c hc
      have h1 : b1 < 256 := hb b1 (by simp)
      have h2 : b2 < 256 := hb b2 (by simp)
      simp [btoa] at hc
      rcases hc with h | h | h | h
      · exact Or.inr ⟨b1 / 4, by omega, h⟩
      · exact Or.inr ⟨b1 % 4 * 16 + b2 / 16, by omega, h⟩
      · exact Or.inr ⟨b2 % 16 * 4, by omega, h⟩
      · exact Or.inl h
  | b1 :: b2 :: b3 :: rest =>
      intro c hc
      have h1 : b1 < 256 := hb b1 (by simp)
      have h2 : b2 < 256 := hb b2 (by simp)
      have h3 : b3 < 256 := hb b3 (by simp)
      simp [btoa] at hc
      rcases hc with h | h | h | h | h
      · exact Or.inr ⟨b1 / 4, by omega, h⟩
      · exact Or.inr ⟨b1 % 4 * 16 + b2 / 16, by omega, h⟩
      · exact Or.inr ⟨b2 % 16 * 4 + b3 / 64, by omega, h⟩
      · exact Or.inr ⟨b3 % 64, by omega, h⟩
      · exact btoa_chars rest (fun b hbm => hb b (by simp [hbm])) c h

theorem btoa_filter (bs : List Nat) (hb : ∀ b ∈ bs, b < 256) :
    (btoa bs).filter (fun c => ¬ isWS c) = btoa bs := by
  rw [List.filter_eq_self]
  intro c hc
  rcases btoa_chars bs hb c hc with h | ⟨n, hn, h⟩
  · subst h; decide
  · subst h
    simp [b64Char_not_ws n hn]

theorem btoa_length (bs : List Nat) : (btoa bs).length % 4 = 0 := by
  match bs with
  | [] => rfl
  | [b1] => simp [btoa]
  | [b1, b2] => simp [btoa]
  | b1 :: b2 :: b3 :: rest =>
      have := btoa_length rest
      simp [btoa]
      omega

theorem btoa_ne_nil (bs : List Nat) (h : bs ≠ []) : btoa bs ≠ [] := by
  match bs with
  | [] => exact absurd rfl h
  | [b1] => simp [btoa]
  | [b1, b2] => simp [btoa]
  | b1 :: b2 :: b3 :: rest => simp [btoa]

theorem stripPad_append (xs t : List Char) (hx : xs.length % 4 = 0)
    (ht : t.length % 4 = 0) (hne : t ≠ []) :
    stripPad (xs ++ t) = xs ++ stripPad t := by
  have htpos : 0 < t.length := List.length_pos.mpr hne
  have ht4 : 4 ≤ t.length := by omega
  have hlen : (xs ++ t).length % 4 = 0 := by
    simp only [List.length_append]
    omega
  have hg1 : (xs ++ t).getLast? = t.getLast? := by
    rw [List.getLast?_append]
    exact Option.or_of_isSome (List.getLast?_isSome.mpr hne)
  have hd1 : (xs ++ t).dropLast = xs ++ t.dropLast :=
    List.dropLast_append_of_ne_nil _ hne
  have hdne : t.dropLast ≠ [] := by
    have := t.length_dropLast
    intro hn
    rw [hn] at this
    simp at this
    omega
  have hg2 : (xs ++ t.dropLast).getLast? = t.dropLast.getLast? := by
    rw [List.getLast?_append]
    exact Option.or_of_isSome (List.getLast?_isSome.mpr hdne)
  have hd2 : (xs ++ t.dropLast).dropLast = xs ++ t.dropLast.dropLast :=
    List.dropLast_append_of_ne_nil _ hdne
  unfold stripPad
  rw [if_pos hlen, if_pos ht, hg1, hd1, hg2, hd2]
  by_cases h1 : t.getLast? = some '='
  · rw [if_pos h1, if_pos h1]
    by_cases h2 : t.dropLast.getLast? = some '='
    · rw [if_pos h2, if_pos h2]
    · rw [if_neg h2, if_neg h2]
  · rw [if_neg h1, if_neg h1]

theorem stripPad_btoa (bs : List Nat) (hb : ∀ b ∈ bs, b < 256) :
    stripPad (btoa bs) = b64Digits bs := by
  match bs with
  | [] => rfl
  | [b1] =>
      show stripPad [b64Char (b1 / 4), b64Char (b1 % 4 * 16), '=', '='] = _
      simp [stripPad, b64Digits]
  | [b1, b2] =>
      have h2 : b2 < 256 := hb b2 (by simp)
      have hc3 : b64Char (b2 % 16 * 4) ≠ '=' := b64Char_ne_pad _ (by omega)
      show stripPad [b64Char (b1 / 4), b64Char (b1 % 4 * 16 + b2 / 16),
        b64Char (b2 % 16 * 4), '='] = _
      simp [stripPad, b64Digits, hc3]
  | b1 :: b2 :: b3 :: rest =>
      have h3 : b3 < 256 := hb b3 (by simp)
      have hc4 : b64Char (b3 % 64) ≠ '=' := b64Char_ne_pad _ (by omega)
      match hr : rest with
      | [] =>
          show stripPad [b64Char (b1 / 4), b64Char (b1 % 4 * 16 + b2 / 16),
            b64Char (b2 % 16 * 4 + b3 / 64), b64Char (b3 % 64)] = _
          simp [stripPad, b64Digits, hc4]
      | x :: xs =>
          have hrest : (x :: xs : List Nat) ≠ [] := by simp
          have hstep : btoa (b1 :: b2 :: b3 :: x :: xs)
              = [b64Char (b1 / 4), b64Char (b1 % 4 * 16 + b2 / 16),
                 b64Char (b2 % 16 * 4 + b3 / 64), b64Char (b3 % 64)] ++ btoa (x :: xs) := by
            simp [btoa]
          rw [hstep, stripPad_append _ _ (by simp) (btoa_length _) (btoa_ne_nil _ hrest),
            stripPad_btoa (x :: xs) (fun b hbm => hb b (by simp [hbm]))]
          simp [b64Digits]

theorem b64Digits_decode (bs : List Nat) (hb : ∀ b ∈ bs, b < 256) :
    (b64Digits bs).length % 4 ≠ 1
    ∧ ∃ sx, (b64Digits bs).mapM b64Index = some sx ∧ sextetsToBytes sx = bs := by
  match bs with
  | [] => exact ⟨by decide, [], by rfl, rfl⟩
  | [b1] =>
      have h1 : b1 < 256 := hb b1 (by simp)
      have e1 := b64Index_b64Char (b1 / 4) (by omega)
      have e2 := b64Index_b64Char (b1 % 4 * 16) (by omega)
      refine ⟨by simp [b64Digits], [b1 / 4, b1 % 4 * 16], ?_, ?_⟩
      · simp only [b64Digits]
        rw [List.mapM_cons, List.mapM_cons, List.mapM_nil, e1, e2]
        rfl
      · show [b1 / 4 * 4 + b1 % 4 * 16 / 16] = [b1]
        congr 1
        omega
  | [b1, b2] =>
      have h1 : b1 < 256 := hb b1 (by simp)
      have h2 : b2 < 256 := hb b2 (by simp)
      have e1 := b64Index_b64Char (b1 / 4) (by omega)
      have e2 := b64Index_b64Char (b1 % 4 * 16 + b2 / 16) (by omega)
      have e3 := b64Index_b64Char (b2 % 16 * 4) (by omega)
      refine ⟨by simp [b64Digits], [b1 / 4, b1 % 4 * 16 + b2 / 16, b2 % 16 * 4], ?_, ?_⟩
      · simp only [b64Digits]
        rw [List.mapM_cons, List.mapM_cons, List.mapM_cons, List.mapM_nil, e1, e2, e3]
        rfl
      · show [b1 / 4 * 4 + (b1 % 4 * 16 + b2 / 16) / 16,
          (b1 % 4 * 16 + b2 / 16) % 16 * 16 + b2 % 16 * 4 / 4] = [b1, b2]
        congr 1
        · omega
        · congr 1
          omega
  | b1 :: b2 :: b3 :: rest =>
      have h1 : b1 < 256 := hb b1 (by simp)
      have h2 : b2 < 256 := hb b2 (by simp)
      have h3 : b3 < 256 := hb b3 (by simp)
      obtain ⟨hlen, sx, hmap, hbytes⟩ :=
        b64Digits_decode rest (fun b hbm => hb b (by simp [hbm]))
      have hlen4 : (b64Digits (b1 :: b2 :: b3 :: rest)).length % 4
          = (b64Digits rest).length % 4 := by
        cases rest with
        | nil => simp [b64Digits]
        | cons x xs =>
            simp [b64Digits]
            omega
      refine ⟨by omega,
        b1 / 4 :: (b1 % 4 * 16 + b2 / 16) :: (b2 % 16 * 4 + b3 / 64) :: b3 % 64 :: sx,
        ?_, ?_⟩
      · have e1 := b64Index_b64Char (b1 / 4) (by omega)
        have e2 := b64Index_b64Char (b1 % 4 * 16 + b2 / 16) (by omega)
        have e3 := b64Index_b64Char (b2 % 16 * 4 + b3 / 64) (by omega)
        have e4 := b64Index_b64Char (b3 % 64) (by omega)
        simp only [b64Digits]
        rw [List.mapM_cons, List.mapM_cons, List.mapM_cons, List.mapM_cons, e1, e2, e3, e4,
          hmap]
        rfl
      · show (b1 / 4 * 4 + (b1 % 4 * 16 + b2 / 16) / 16)
            :: ((b1 % 4 * 16 + b2 / 16) % 16 * 16 + (b2 % 16 * 4 + b3 / 64) / 4)
            :: ((b2 % 16 * 4 + b3 / 64) % 4 * 64 + b3 % 64)
            :: sextetsToBytes sx = b1 :: b2 :: b3 :: rest
        rw [hbytes]
        congr 1
        · omega
        · congr 1
          · omega
          · congr 1
            omega

theorem atob_btoa (bs : List Nat) (hb : ∀ b ∈ bs, b < 256) :
    atob (btoa bs) = some bs := by
  obtain ⟨hlen, sx, hmap, hbytes⟩ := b64Digits_decode bs hb
  unfold atob
  rw [btoa_filter bs hb, stripPad_btoa bs hb, if_neg hlen, hmap]
  show some (sextetsToBytes sx) = some bs
  rw [hbytes]

-- ---------------------------------------------------------------------------
-- Bitmask lemmas (`encodeBytes` / `decodeActive`)
-- ---------------------------------------------------------------------------

theorem getD_set_self (l : List Nat) (i a : Nat) (h : i < l.length) :
    (l.set i a).getD i 0 = a := by
  rw [List.getD_eq_getElem _ _ (by simpa using h)]
  exact List.getElem_set_eq (by simpa using h)

theorem getD_set_ne (l : List Nat) (i j a : Nat) (hne : i ≠ j) (hj : j < l.length) :
    (l.set i a).getD j 0 = l.getD j 0 := by
  rw [List.getD_eq_getElem _ _ (by simpa using hj), List.getD_eq_getElem _ _ hj]
  exact List.getElem_set_ne hne (by simpa using hj)

theorem getD_replicate_zero (n j : Nat) (hj : j < n) :
    (List.replicate n (0 : Nat)).getD j 0 = 0 := by
  rw [List.getD_eq_getElem _ _ (by simpa using hj)]
  simp

/-- The step function of the `encodeBuild` bitmask loop. -/
theorem encodeBytes_invariant (active : Finset String) :
    ∀ m, m ≤ NODE_IDS.length →
    (((List.range m).foldl
      (fun (bytes : List Nat) (i : Nat) =>
        if NODE_IDS.getD i "" ∈ active then
          bytes.set (i / 8) (bytes.getD (i / 8) 0 ||| (1 <<< (i % 8)))
        else bytes)
      (List.replicate BYTE_COUNT 0)).length = BYTE_COUNT
    ∧ (∀ j, j < BYTE_COUNT →
        ((List.range m).foldl
          (fun (bytes : List Nat) (i : Nat) =>
            if NODE_IDS.getD i "" ∈ active then
              bytes.set (i / 8) (bytes.getD (i / 8) 0 ||| (1 <<< (i % 8)))
            else bytes)
          (List.replicate BYTE_COUNT 0)).getD j 0 < 256)
    ∧ ∀ j k, j < BYTE_COUNT → k < 8 →
        ((((List.range m).foldl
          (fun (bytes : List Nat) (i : Nat) =>
            if NODE_IDS.getD i "" ∈ active then
              bytes.set (i / 8) (bytes.getD (i / 8) 0 ||| (1 <<< (i % 8)))
            else bytes)
          (List.replicate BYTE_COUNT 0)).getD j 0).testBit k
          ↔ 8 * j + k < m ∧ NODE_IDS.getD (8 * j + k) "" ∈ active)) := by
  intro m
  induction m with
  | zero =>
      intro _
      simp only [List.range_zero, List.foldl_nil]
      refine ⟨by simp, fun j hj => by rw [getD_replicate_zero _ _ hj]; omega,
        fun j k hj hk => ?_⟩
      rw [getD_replicate_zero _ _ hj]
      simp
  | succ m ih =>
      intro hm
      obtain ⟨hlen, hbound, hbit⟩ := ih (by omega)
      simp only [List.range_succ, List.foldl_append, List.foldl_cons, List.foldl_nil]
      generalize hB : (List.range m).foldl
        (fun (bytes : List Nat) (i : Nat) =>
          if NODE_IDS.getD i "" ∈ active then
            bytes.set (i / 8) (bytes.getD (i / 8) 0 ||| (1 <<< (i % 8)))
          else bytes)
        (List.replicate BYTE_COUNT 0) = B at hlen hbound hbit ⊢
      have hdiv : m / 8 < BYTE_COUNT := by
        unfold BYTE_COUNT
        omega
      by_cases ha : NODE_IDS.getD m "" ∈ active
      · rw [if_pos ha]
        have hsetlen : (B.set (m / 8) (B.getD (m / 8) 0 ||| (1 <<< (m % 8)))).length
            = BYTE_COUNT := by
          rw [List.length_set, hlen]
        refine ⟨hsetlen, fun j hj => ?_, fun j k hj hk => ?_⟩
        · by_cases hj8 : j = m / 8
          · subst hj8
            rw [getD_set_self _ _ _ (by omega)]
            have h2 : (1 <<< (m % 8) : Nat) < 256 := by
              rw [Nat.shiftLeft_eq, one_mul]
              calc (2 : Nat) ^ (m % 8) ≤ 2 ^ 7 :=
                    Nat.pow_le_pow_right (by norm_num) (by omega)
                _ < 256 := by norm_num
            exact Nat.or_lt_two_pow (n := 8) (hbound _ hdiv) h2
          · rw [getD_set_ne _ _ _ _ (fun h => hj8 h.symm) (by omega)]
            exact hbound j hj
        · by_cases hj8 : j = m / 8
          · subst hj8
            rw [getD_set_self _ _ _ (by omega)]
            rw [Nat.testBit_or]
            have hshift : (1 <<< (m % 8) : Nat) = 2 ^ (m % 8) := by
              rw [Nat.shiftLeft_eq, one_mul]
            rw [hshift, Nat.testBit_two_pow]
            simp only [Bool.or_eq_true, decide_eq_true_eq]
            rw [hbit _ k hdiv hk]
            by_cases hk8 : k = m % 8
            · subst hk8
              have h8 : 8 * (m / 8) + m % 8 = m := by omega
              constructor
              · intro _
                rw [h8]
                exact ⟨Nat.lt_succ_self m, ha⟩
              · intro _
                exact Or.inr rfl
            · constructor
              · rintro (⟨h1, h2⟩ | h)
                · exact ⟨by omega, h2⟩
                · exact absurd h.symm hk8
              · rintro ⟨h1, h2⟩
                left
                have hne : 8 * (m / 8) + k ≠ m := by omega
                exact ⟨by omega, h2⟩
          · rw [getD_set_ne _ _ _ _ (fun h => hj8 h.symm) (by omega), hbit j k hj hk]
            have hne : 8 * j + k ≠ m := by omega
            constructor
            · rintro ⟨h1, h2⟩
              exact ⟨by omega, h2⟩
            · rintro ⟨h1, h2⟩
              exact ⟨by omega, h2⟩
      · rw [if_neg ha]
        refine ⟨hlen, hbound, fun j k hj hk => ?_⟩
        rw [hbit j k hj hk]
        have hno : 8 * j + k = m → ¬ NODE_IDS.getD (8 * j + k) "" ∈ active := by
          intro he
          rw [he]
          exact ha
        constructor
        · rintro ⟨h1, h2⟩
          exact ⟨by omega, h2⟩
        · rintro ⟨h1, h2⟩
          rcases Nat.lt_succ_iff_lt_or_eq.mp h1 with h | h
          · exact ⟨h, h2⟩
          · exact absurd h2 (hno h)

theorem and_shift_ne_zero (x k : Nat) :
    (x &&& (1 <<< k) ≠ 0) ↔ x.testBit k = true := by
  rw [Nat.shiftLeft_eq, one_mul, Nat.and_two_pow]
  cases h : x.testBit k <;> simp [h, (by positivity : (0:Nat) < 2 ^ k).ne']

theorem decodeActive_invariant (bytes : List Nat) (x : String) (m : Nat) :
    x ∈ (List.range m).foldl
      (fun (acc : Finset String) (i : Nat) =>
        if i / 8 < bytes.length ∧ bytes.getD (i / 8) 0 &&& (1 <<< (i % 8)) ≠ 0 then
          insert (NODE_IDS.getD i "") acc
        else acc) ∅
    ↔ ∃ i, i < m ∧ NODE_IDS.getD i "" = x ∧ i / 8 < bytes.length
        ∧ bytes.getD (i / 8) 0 &&& (1 <<< (i % 8)) ≠ 0 := by
  induction m with
  | zero => simp
  | succ m ih =>
      simp only [List.range_succ, List.foldl_append, List.foldl_cons, List.foldl_nil]
      by_cases hc : m / 8 < bytes.length ∧ bytes.getD (m / 8) 0 &&& (1 <<< (m % 8)) ≠ 0
      · rw [if_pos hc, Finset.mem_insert]
        constructor
        · rintro (h | h)
          · exact ⟨m, Nat.lt_succ_self m, h.symm, hc.1, hc.2⟩
          · obtain ⟨i, h1, h2⟩ := ih.mp h
            exact ⟨i, by omega, h2⟩
        · rintro ⟨i, h1, h2, h3, h4⟩
          by_cases him : i = m
          · subst him
            exact Or.inl h2.symm
          · exact Or.inr (ih.mpr ⟨i, by omega, h2, h3, h4⟩)
      · rw [if_neg hc, ih]
        constructor
        · rintro ⟨i, h1, h2, h3, h4⟩
          exact ⟨i, by omega, h2, h3, h4⟩
        · rintro ⟨i, h1, h2, h3, h4⟩
          by_cases him : i = m
          · subst him
            exact absurd ⟨h3, h4⟩ hc
          · exact ⟨i, by omega, h2, h3, h4⟩

theorem decodeActive_mem (bytes : List Nat) (x : String) :
    x ∈ decodeActive bytes
    ↔ ∃ i, i < NODE_IDS.length ∧ NODE_IDS.getD i "" = x ∧ i / 8 < bytes.length
        ∧ bytes.getD (i / 8) 0 &&& (1 <<< (i % 8)) ≠ 0 :=
  decodeActive_invariant bytes x NODE_IDS.length

theorem encodeBytes_spec (active : Finset String) :
    (encodeBytes active).length = BYTE_COUNT
    ∧ (∀ j, j < BYTE_COUNT → (encodeBytes active).getD j 0 < 256)
    ∧ ∀ j k, j < BYTE_COUNT → k < 8 →
        (((encodeBytes active).getD j 0).testBit k
          ↔ 8 * j + k < NODE_IDS.length ∧ NODE_IDS.getD (8 * j + k) "" ∈ active) :=
  encodeBytes_invariant active NODE_IDS.length (le_refl _)

theorem encodeBytes_bytes_lt (active : Finset String) :
    ∀ b ∈ encodeBytes active, b < 256 := by
  obtain ⟨hlen, hbound, -⟩ := encodeBytes_spec active
  intro b hb
  obtain ⟨i, hi, hget⟩ := List.getElem_of_mem hb
  rw [← List.getD_eq_getElem _ 0 hi] at hget
  rw [← hget]
  exact hbound i (by omega)

theorem decodeActive_encodeBytes (S : Finset String)
    (hsub : ∀ x ∈ S, x ∈ NODE_IDS) :
    decodeActive (encodeBytes S) = S := by
  obtain ⟨hlen, hbound, hbit⟩ := encodeBytes_spec S
  ext x
  rw [decodeActive_mem]
  constructor
  · rintro ⟨i, hi, hx, hib, hbitcond⟩
    rw [and_shift_ne_zero] at hbitcond
    have := (hbit (i / 8) (i % 8) (by omega) (by omega)).mp hbitcond
    have h8 : 8 * (i / 8) + i % 8 = i := by omega
    rw [h8] at this
    rw [← hx]
    exact this.2
  · intro hx
    obtain ⟨i, hi, hget⟩ := List.getElem_of_mem (hsub x hx)
    rw [← List.getD_eq_getElem _ "" hi] at hget
    refine ⟨i, hi, hget, ?_, ?_⟩
    · rw [hlen]
      unfold BYTE_COUNT
      omega
    · rw [and_shift_ne_zero]
      have h8 : 8 * (i / 8) + i % 8 = i := by omega
      refine (hbit (i / 8) (i % 8) ?_ (by omega)).mpr ?_
      · unfold BYTE_COUNT
        omega
      · rw [h8, hget]
        exact ⟨hi, hx⟩

-- ---------------------------------------------------------------------------
-- BFS lemmas (`validateConnectivity`)
-- ---------------------------------------------------------------------------

theorem adj_getD (a : String) : (buildAdjacency a).getD [] = adjNeighbors a := by
  unfold buildAdjacency
  by_cases h : (ALL_NODES.any fun n => n.id == a || n.connections.any (· == a)) = true
  · rw [h]
    rfl
  · have hfalse : (ALL_NODES.any fun n => n.id == a || n.connections.any (· == a)) = false := by
      revert h
      cases ALL_NODES.any fun n => n.id == a || n.connections.any (· == a) <;> simp
    rw [hfalse]
    have hnone : ∀ n ∈ ALL_NODES, n.id ≠ a ∧ a ∉ n.connections := by
      intro n hn
      constructor
      · intro he
        apply h
        exact List.any_eq_true.mpr ⟨n, hn, by simp [he]⟩
      · intro hmem
        apply h
        refine List.any_eq_true.mpr ⟨n, hn, ?_⟩
        simp only [Bool.or_eq_true, List.any_eq_true]
        exact Or.inr ⟨a, hmem, by simp⟩
    have hempty : adjNeighbors a = [] := by
      unfold adjNeighbors
      rw [List.flatten_eq_nil_iff]
      intro l hl
      obtain ⟨n, hn, rfl⟩ := List.mem_map.mp hl
      rw [if_neg (hnone n hn).1, if_neg (hnone n hn).2]
      rfl
    rw [hempty]
    rfl

theorem adjNeighbors_mem_allIds (a x : String) (h : x ∈ adjNeighbors a) : x ∈ allIds := by
  unfold adjNeighbors at h
  obtain ⟨l, hl, hx⟩ := List.mem_flatten.mp h
  obtain ⟨n, hn, rfl⟩ := List.mem_map.mp hl
  unfold allIds
  rw [List.mem_toFinset, List.mem_flatten]
  refine ⟨n.id :: n.connections, List.mem_map.mpr ⟨n, hn, rfl⟩, ?_⟩
  rcases List.mem_append.mp hx with h1 | h2
  · split at h1
    · exact List.mem_cons_of_mem _ h1
    · simp at h1
  · split at h2
    · rw [List.mem_singleton.mp h2]
      exact List.mem_cons_self _ _
    · simp at h2

theorem enqueue_pos {A : Finset String} {q : List String} {v : Finset String} {n : String}
    (h : n ∈ A ∧ n ∉ v) : enqueue A (q, v) n = (q ++ [n], insert n v) := by
  unfold enqueue
  rw [if_pos h]

theorem enqueue_neg {A : Finset String} {q : List String} {v : Finset String} {n : String}
    (h : ¬ (n ∈ A ∧ n ∉ v)) : enqueue A (q, v) n = (q, v) := by
  unfold enqueue
  rw [if_neg h]

theorem enqueue_foldl_mono (A : Finset String) (l : List String) :
    ∀ q v, v ⊆ (l.foldl (enqueue A) (q, v)).2 := by
  induction l with
  | nil => intro q v; exact Finset.Subset.refl v
  | cons n t ih =>
      intro q v
      simp only [List.foldl_cons]
      by_cases hc : n ∈ A ∧ n ∉ v
      · rw [enqueue_pos hc]
        exact (Finset.subset_insert n v).trans (ih _ _)
      · rw [enqueue_neg hc]
        exact ih q v

theorem enqueue_foldl_queue_ext (A : Finset String) (l : List String) :
    ∀ q v, ∃ ext, (l.foldl (enqueue A) (q, v)).1 = q ++ ext
      ∧ ∀ x ∈ ext, x ∈ (l.foldl (enqueue A) (q, v)).2 := by
  induction l with
  | nil => intro q v; exact ⟨[], by simp, by simp⟩
  | cons n t ih =>
      intro q v
      simp only [List.foldl_cons]
      by_cases hc : n ∈ A ∧ n ∉ v
      · rw [enqueue_pos hc]
        obtain ⟨ext, he, hext⟩ := ih (q ++ [n]) (insert n v)
        refine ⟨n :: ext, by rw [he]; simp, fun x hx => ?_⟩
        rcases List.mem_cons.mp hx with h | h
        · subst h
          exact enqueue_foldl_mono A t _ _ (Finset.mem_insert_self x v)
        · exact hext x h
      · rw [enqueue_neg hc]
        exact ih q v

theorem enqueue_foldl_covers (A : Finset String) (l : List String) :
    ∀ q v, ∀ n ∈ l, n ∈ A → n ∈ (l.foldl (enqueue A) (q, v)).2 := by
  induction l with
  | nil => intro q v n hn; simp at hn
  | cons m t ih =>
      intro q v n hn hA
      simp only [List.foldl_cons]
      rcases List.mem_cons.mp hn with h | h
      · subst h
        by_cases hc : n ∈ A ∧ n ∉ v
        · rw [enqueue_pos hc]
          exact enqueue_foldl_mono A t _ _ (Finset.mem_insert_self n v)
        · rw [enqueue_neg hc]
          have hv : n ∈ v := by
            by_contra hnv
            exact hc ⟨hA, hnv⟩
          exact enqueue_foldl_mono A t _ _ hv
      · by_cases hc : m ∈ A ∧ m ∉ v
        · rw [enqueue_pos hc]
          exact ih _ _ n h hA
        · rw [enqueue_neg hc]
          exact ih _ _ n h hA

theorem enqueue_foldl_sound (A : Finset String) (l : List String) :
    ∀ q v, ∀ x ∈ (l.foldl (enqueue A) (q, v)).2, x ∈ v ∨ (x ∈ l ∧ x ∈ A) := by
  induction l with
  | nil => intro q v x hx; exact Or.inl hx
  | cons n t ih =>
      intro q v x hx
      simp only [List.foldl_cons] at hx
      by_cases hc : n ∈ A ∧ n ∉ v
      · rw [enqueue_pos hc] at hx
        rcases ih _ _ x hx with h | h
        · rcases Finset.mem_insert.mp h with h1 | h1
          · subst h1
            exact Or.inr ⟨List.mem_cons_self x t, hc.1⟩
          · exact Or.inl h1
        · exact Or.inr ⟨List.mem_cons_of_mem n h.1, h.2⟩
      · rw [enqueue_neg hc] at hx
        rcases ih _ _ x hx with h | h
        · exact Or.inl h
        · exact Or.inr ⟨List.mem_cons_of_mem n h.1, h.2⟩

theorem enqueue_foldl_vq (A : Finset String) (l : List String) :
    ∀ q v, ∀ x ∈ (l.foldl (enqueue A) (q, v)).2,
      x ∈ v ∨ x ∈ (l.foldl (enqueue A) (q, v)).1 := by
  induction l with
  | nil => intro q v x hx; exact Or.inl hx
  | cons n t ih =>
      intro q v x hx
      simp only [List.foldl_cons] at hx ⊢
      by_cases hc : n ∈ A ∧ n ∉ v
      · rw [enqueue_pos hc] at hx ⊢
        rcases ih _ _ x hx with h | h
        · rcases Finset.mem_insert.mp h with h1 | h1
          · subst h1
            obtain ⟨ext, he, -⟩ := enqueue_foldl_queue_ext A t (q ++ [x]) (insert x v)
            right
            rw [he]
            simp
          · exact Or.inl h1
        · exact Or.inr h
      · rw [enqueue_neg hc] at hx ⊢
        exact ih _ _ x hx

theorem enqueue_foldl_measure (A : Finset String) (l : List String) :
    ∀ q v, (∀ x ∈ l, x ∈ allIds) →
      (l.foldl (enqueue A) (q, v)).1.length + 2 * ((allIds \ (l.foldl (enqueue A) (q, v)).2).card)
        ≤ q.length + 2 * ((allIds \ v).card) := by
  induction l with
  | nil => intro q v _; exact le_refl _
  | cons n t ih =>
      intro q v hl
      simp only [List.foldl_cons]
      by_cases hc : n ∈ A ∧ n ∉ v
      · rw [enqueue_pos hc]
        have hstep := ih (q ++ [n]) (insert n v) (fun x hx => hl x (List.mem_cons_of_mem n hx))
        have hmemd : n ∈ allIds \ v :=
          Finset.mem_sdiff.mpr ⟨hl n (List.mem_cons_self n t), hc.2⟩
        have hcard : (allIds \ insert n v).card + 1 = (allIds \ v).card := by
          rw [Finset.sdiff_insert, Finset.card_erase_of_mem hmemd]
          have hpos : 0 < (allIds \ v).card := Finset.card_pos.mpr ⟨n, hmemd⟩
          omega
        refine hstep.trans ?_
        simp only [List.length_append, List.length_singleton]
        omega
      · rw [enqueue_neg hc]
        exact ih q v (fun x hx => hl x (List.mem_cons_of_mem n hx))

theorem bfsAux_succ (A : Finset String) (fuel : Nat) (curr : String) (rest : List String)
    (v : Finset String) :
    bfsAux A (fuel + 1) (curr :: rest) v
      = bfsAux A fuel (((buildAdjacency curr).getD []).foldl (enqueue A) (rest, v)).1
          (((buildAdjacency curr).getD []).foldl (enqueue A) (rest, v)).2 := rfl

theorem bfsAux_mono (A : Finset String) :
    ∀ fuel q v, v ⊆ bfsAux A fuel q v := by
  intro fuel
  induction fuel with
  | zero => intro q v; exact Finset.Subset.refl v
  | succ fuel ih =>
      intro q v
      cases q with
      | nil => exact Finset.Subset.refl v
      | cons curr rest =>
          rw [bfsAux_succ]
          exact (enqueue_foldl_mono A _ rest v).trans (ih _ _)

theorem bfsAux_sound (A : Finset String) :
    ∀ fuel q v, (∀ x ∈ q, x ∈ v) → (∀ x ∈ v, Connected A x) →
      ∀ x ∈ bfsAux A fuel q v, Connected A x := by
  intro fuel
  induction fuel with
  | zero => intro q v _ hv x hx; exact hv x hx
  | succ fuel ih =>
      intro q v hq hv
      cases q with
      | nil => exact hv
      | cons curr rest =>
          rw [bfsAux_succ]
          apply ih
          · intro x hx
            obtain ⟨ext, he, hext⟩ := enqueue_foldl_queue_ext A _ rest v
            rw [he] at hx
            rcases List.mem_append.mp hx with h | h
            · exact enqueue_foldl_mono A _ rest v (hq x (List.mem_cons_of_mem curr h))
            · exact hext x h
          · intro x hx
            rcases enqueue_foldl_sound A _ rest v x hx with h | ⟨hadj, hA⟩
            · exact hv x h
            · have hcurr : Connected A curr := hv curr (hq curr (List.mem_cons_self curr rest))
              rw [adj_getD] at hadj
              exact Relation.ReflTransGen.tail hcurr ⟨hadj, hA⟩

theorem bfsAux_closed (A : Finset String) :
    ∀ fuel q v, q.length + 2 * ((allIds \ v).card) < fuel →
      (∀ x ∈ q, x ∈ v) →
      (∀ x ∈ v, x ∈ q ∨ ∀ n ∈ adjNeighbors x, n ∈ A → n ∈ v) →
      ∀ x ∈ bfsAux A fuel q v, ∀ n ∈ adjNeighbors x, n ∈ A → n ∈ bfsAux A fuel q v := by
  intro fuel
  induction fuel with
  | zero =>
      intro q v hm
      exact absurd hm (Nat.not_lt_zero _)
  | succ fuel ih =>
      intro q v hm hq hinv
      cases q with
      | nil =>
          intro x hx n hn hA
          rcases hinv x hx with h | h
          · simp at h
          · exact h n hn hA
      | cons curr rest =>
          rw [bfsAux_succ]
          apply ih
          · have hsub : ∀ x ∈ (buildAdjacency curr).getD [], x ∈ allIds := by
              rw [adj_getD]
              exact fun x hx => adjNeighbors_mem_allIds curr x hx
            have hme := enqueue_foldl_measure A _ rest v hsub
            simp only [List.length_cons] at hm
            omega
          · intro x hx
            obtain ⟨ext, he, hext⟩ := enqueue_foldl_queue_ext A _ rest v
            rw [he] at hx
            rcases List.mem_append.mp hx with h | h
            · exact enqueue_foldl_mono A _ rest v (hq x (List.mem_cons_of_mem curr h))
            · exact hext x h
          · intro x hx
            rcases enqueue_foldl_vq A _ rest v x hx with hxv | hxq
            · rcases hinv x hxv with hxoldq | hclosed
              · rcases List.mem_cons.mp hxoldq with hxcurr | hxrest
                · subst hxcurr
                  right
                  intro n hn hA
                  refine enqueue_foldl_covers A _ rest v n ?_ hA
                  rw [adj_getD]
                  exact hn
                · left
                  obtain ⟨ext, he, -⟩ := enqueue_foldl_queue_ext A _ rest v
                  rw [he]
                  exact List.mem_append.mpr (Or.inl hxrest)
              · right
                intro n hn hA
                exact enqueue_foldl_mono A _ rest v (hclosed n hn hA)
            · left
              exact hxq

set_option maxRecDepth 4000 in
theorem validateConnectivity_iff (A : Finset String) :
    validateConnectivity A = true ↔ ∀ x ∈ A, Connected A x := by
  unfold validateConnectivity
  rw [decide_eq_true_iff]
  constructor
  · intro hsub x hx
    refine bfsAux_sound A BFS_FUEL ["start"] {"start"} ?_ ?_ x (hsub hx)
    · intro y hy
      rw [List.mem_singleton] at hy
      subst hy
      exact Finset.mem_singleton.mpr rfl
    · intro y hy
      rw [Finset.mem_singleton] at hy
      subst hy
      exact Relation.ReflTransGen.refl
  · intro hconn
    have hmeas : (["start"] : List String).length
        + 2 * ((allIds \ ({"start"} : Finset String)).card) < BFS_FUEL := by
      rw [show ((allIds \ ({"start"} : Finset String)).card) = 48 from by decide]
      decide
    have hq : ∀ x ∈ (["start"] : List String), x ∈ ({"start"} : Finset String) := by
      intro y hy
      rw [List.mem_singleton] at hy
      subst hy
      exact Finset.mem_singleton.mpr rfl
    have hinv : ∀ x ∈ ({"start"} : Finset String),
        x ∈ (["start"] : List String)
          ∨ ∀ n ∈ adjNeighbors x, n ∈ A → n ∈ ({"start"} : Finset String) := by
      intro y hy
      rw [Finset.mem_singleton] at hy
      subst hy
      exact Or.inl (List.mem_singleton.mpr rfl)
    have hclosed := bfsAux_closed A BFS_FUEL _ _ hmeas hq hinv
    have hstart : "start" ∈ bfsAux A BFS_FUEL ["start"] {"start"} :=
      bfsAux_mono A BFS_FUEL _ _ (Finset.mem_singleton.mpr rfl)
    intro x hx
    have hcx := hconn x hx
    clear hx
    induction hcx with
    | refl => exact hstart
    | tail hab hbc ih => exact hclosed _ ih _ hbc.1 hbc.2

-- ---------------------------------------------------------------------------
-- Codec assembly lemmas
-- ---------------------------------------------------------------------------

theorem btoa_not_ws (bs : List Nat) (hb : ∀ b ∈ bs, b < 256) :
    ∀ c ∈ btoa bs, isWS c = false := by
  intro c hc
  rcases btoa_chars bs hb c hc with h | ⟨n, hn, h⟩
  · subst h
    decide
  · subst h
    exact b64Char_not_ws n hn

theorem dropWhile_ws_eq_self (l : List Char) (h : ∀ c ∈ l, isWS c = false) :
    l.dropWhile isWS = l := by
  cases l with
  | nil => rfl
  | cons a t =>
      rw [List.dropWhile_cons, h a (List.mem_cons_self a t)]
      simp

theorem jsTrim_eq_self (l : List Char) (h : ∀ c ∈ l, isWS c = false) :
    jsTrim l = l := by
  unfold jsTrim
  rw [dropWhile_ws_eq_self l h,
    dropWhile_ws_eq_self l.reverse (fun c hc => h c (List.mem_reverse.mp hc)),
    List.reverse_reverse]

/-- C1: for a root-containing set of catalog ids whose every member is
connected to `'start'` through members of the set along the adjacency
index, `decodeBuild` inverts `encodeBuild`; and `encodeBuild` is a
function of the set alone, so equal sets yield the identical code. -/
theorem encode_decode_roundtrip (S : Finset String)
    (hstart : "start" ∈ S)
    (hsub : ∀ x ∈ S, x ∈ NODE_IDS)
    (hconn : ∀ x ∈ S, Connected S x) :
    decodeBuild (encodeBuild S) = some S
    ∧ ∀ T : Finset String, T = S → encodeBuild T = encodeBuild S := by
  refine ⟨?_, fun T hT => by rw [hT]⟩
  have hbytes := encodeBytes_bytes_lt S
  have hatob := atob_btoa (encodeBytes S) hbytes
  have hnws : ∀ c ∈ encodeBuild S, isWS c = false := by
    intro c hc
    unfold encodeBuild at hc
    rcases List.mem_append.mp hc with h | h
    · have htag : ∀ c ∈ NEXUS_TAG, isWS c = false := by decide
      exact htag c h
    · exact btoa_not_ws _ hbytes c h
  have htrim : jsTrim (encodeBuild S) = encodeBuild S := jsTrim_eq_self _ hnws
  have hcode : encodeBuild S = NEXUS_TAG ++ btoa (encodeBytes S) := rfl
  have hmap : (NEXUS_TAG ++ btoa (encodeBytes S)).map Char.toUpper
      = NEXUS_TAG ++ (btoa (encodeBytes S)).map Char.toUpper := by
    rw [List.map_append, show NEXUS_TAG.map Char.toUpper = NEXUS_TAG from by decide]
  have hpre : NEXUS_TAG.isPrefixOf
      (NEXUS_TAG ++ (btoa (encodeBytes S)).map Char.toUpper) = true := by
    rw [List.isPrefixOf_iff_prefix]
    exact List.prefix_append _ _
  unfold decodeBuild
  rw [htrim, hcode, hmap]
  rw [if_neg (show ¬ ¬ (NEXUS_TAG.isPrefixOf
    (NEXUS_TAG ++ (btoa (encodeBytes S)).map Char.toUpper) = true) by simp [hpre])]
  rw [List.drop_left, hatob]
  show (if validateConnectivity (insert "start" (decodeActive (encodeBytes S))) then
      some (insert "start" (decodeActive (encodeBytes S))) else none) = some S
  rw [decodeActive_encodeBytes S hsub, Finset.insert_eq_self.mpr hstart,
    if_pos ((validateConnectivity_iff S).mpr hconn)]

/-- Witness for C1 at the concrete build `{start, rf_entry}`. -/
theorem encode_decode_roundtrip_witness :
    decodeBuild (encodeBuild ({"start", "rf_entry"} : Finset String))
      = some {"start", "rf_entry"} :=
  (encode_decode_roundtrip {"start", "rf_entry"} (by decide) (by decide)
    (fun x hx => by
      rcases Finset.mem_insert.mp hx with h | h
      · subst h
        exact Relation.ReflTransGen.refl
      · rw [Finset.mem_singleton] at h
        subst h
        exact Relation.ReflTransGen.single ⟨by decide, by decide⟩)).1

/-- C2: `decodeBuild` returns `none` when the trimmed input lacks the
case-insensitive `'NEXUS-'` tag, when the payload is not valid base64
(the decode exception is caught, never propagated), or when some member
of the decoded set — root inserted unconditionally — is not joined to
`'start'` through set members along the adjacency index (the property
the BFS re-validation checks); and every non-`none` result contains
`'start'`. -/
theorem decode_rejects_malformed (code : List Char) :
    (NEXUS_TAG.isPrefixOf ((jsTrim code).map Char.toUpper) = false →
      decodeBuild code = none)
    ∧ (atob ((jsTrim code).drop NEXUS_TAG.length) = none → decodeBuild code = none)
    ∧ (∀ bytes, atob ((jsTrim code).drop NEXUS_TAG.length) = some bytes →
        ¬ (∀ x ∈ insert "start" (decodeActive bytes),
            Connected (insert "start" (decodeActive bytes)) x) →
        decodeBuild code = none)
    ∧ (∀ S, decodeBuild code = some S → "start" ∈ S) := by
  refine ⟨?_, ?_, ?_, ?_⟩
  · intro h
    unfold decodeBuild
    rw [if_pos (by simp [h])]
  · intro h
    unfold decodeBuild
    by_cases hp : NEXUS_TAG.isPrefixOf ((jsTrim code).map Char.toUpper) = true
    · rw [if_neg (by simp [hp]), h]
    · have hp' : NEXUS_TAG.isPrefixOf ((jsTrim code).map Char.toUpper) = false := by
        revert hp
        cases NEXUS_TAG.isPrefixOf ((jsTrim code).map Char.toUpper) <;> simp
      rw [if_pos (by simp [hp'])]
  · intro bytes hbytes hconn
    unfold decodeBuild
    by_cases hp : NEXUS_TAG.isPrefixOf ((jsTrim code).map Char.toUpper) = true
    · rw [if_neg (by simp [hp]), hbytes]
      show (if validateConnectivity (insert "start" (decodeActive bytes)) then
          some (insert "start" (decodeActive bytes)) else none) = none
      rw [if_neg (fun hv => hconn ((validateConnectivity_iff _).mp hv))]
    · have hp' : NEXUS_TAG.isPrefixOf ((jsTrim code).map Char.toUpper) = false := by
        revert hp
        cases NEXUS_TAG.isPrefixOf ((jsTrim code).map Char.toUpper) <;> simp
      rw [if_pos (by simp [hp'])]
  · intro S hS
    unfold decodeBuild at hS
    by_cases hp : NEXUS_TAG.isPrefixOf ((jsTrim code).map Char.toUpper) = true
    · rw [if_neg (by simp [hp])] at hS
      cases hatob : atob ((jsTrim code).drop NEXUS_TAG.length) with
      | none =>
          rw [hatob] at hS
          exact absurd hS (by simp)
      | some bytes =>
          rw [hatob] at hS
          have hS' : (if validateConnectivity (insert "start" (decodeActive bytes)) then
              some (insert "start" (decodeActive bytes)) else none) = some S := hS
          by_cases hv : validateConnectivity (insert "start" (decodeActive bytes)) = true
          · rw [if_pos hv] at hS'
            injection hS' with hS''
            rw [← hS'']
            exact Finset.mem_insert_self _ _
          · rw [if_neg hv] at hS'
            exact absurd hS' (by simp)
    · have hp' : NEXUS_TAG.isPrefixOf ((jsTrim code).map Char.toUpper) = false := by
        revert hp
        cases NEXUS_TAG.isPrefixOf ((jsTrim code).map Char.toUpper) <;> simp
      rw [if_pos (by simp [hp'])] at hS
      exact absurd hS (by simp)

/-- Witness for C2: a tagless input is rejected. -/
theorem decode_rejects_malformed_witness : decodeBuild ['X'] = none :=
  (decode_rejects_malformed ['X']).1 (by decide)
